import Mathlib

/-!
# Verification of the SudokuSolver core (src/main.rs)

Shallow embedding of the Sudoku board/slice data model, the constraint
checker and the move generator of the Rust program, together with proofs
of the specified properties.

Rust `u8` cell values are modelled as `Nat` (all program values stay well
below 2^8: inputs are digits 0–9 and candidates are 1–9, so no wrap-around
can occur). Fixed-size arrays `[Cell; 9]` / `[Cell; 81]` are modelled as
lists built at those lengths; fixed-size array *inputs* to constructors are
modelled as index functions (an array is a total map from its indices).
-/

set_option autoImplicit false

namespace SudokuSolver

/-- Rust `type Value = u8;` (cell values are embedded as plain `Nat`). -/
abbrev Value := Nat

/-- `Slice` is the 9-cell array `[Cell; 9]` (a row, column or block). -/
abbrev Slice := List Nat

/-- `Slice::has`: does this slice contain the provided value?
Mirrors the Rust loop `for i in 0..9 { if self.0[i].0 == value { return true } }`. -/
def Slice.has (s : Slice) (value : Nat) : Bool :=
  (List.range 9).any (fun i => s.getD i 0 == value)

/-- One step of the `count` accumulation in `has_unique_sudoku_values`:
`if 1 <= cell.0 && cell.0 <= 9 { count[cell.0 - 1] += 1 }`. -/
def Slice.count_step (cnt : List Nat) (c : Nat) : List Nat :=
  if 1 ≤ c ∧ c ≤ 9 then cnt.set (c - 1) (cnt.getD (c - 1) 0 + 1) else cnt

/-- `Slice::has_unique_sudoku_values`: build the 9-entry occurrence count of
the admissible values 1–9, then fail iff some count exceeds 1. -/
def Slice.has_unique_sudoku_values (s : Slice) : Bool :=
  (s.foldl Slice.count_step (List.replicate 9 0)).all
    (fun occurences => !(decide (occurences > 1)))

/-- `Slice::unused_sudoku_values`: for each candidate 1..=9 in order, keep it
iff no cell holds it (the inner search loop is exactly `Slice::has`). -/
def Slice.unused_sudoku_values (s : Slice) : List Nat :=
  (List.range' 1 9).filter (fun candidate => !(Slice.has s candidate))

/-- The Sudoku board: 81 cells, row-major. -/
@[ext]
structure Board where
  cells : List Nat
deriving DecidableEq

namespace Board

/-- `Board::from_flattened_values(values: &[Value; 81])`; the input array is
modelled as its index function. -/
def from_flattened_values (values : Nat → Nat) : Board :=
  ⟨(List.range 81).map values⟩

/-- `Board::from_values_per_row(values: &[[Value; 9]; 9])`: start from the
all-zero cell array and write `values[row_id][column_id]` at flat index
`row_id * 9 + column_id`, row by row. -/
def from_values_per_row (values : Nat → Nat → Nat) : Board :=
  ⟨(List.range 9).foldl
    (fun new_cells row_id =>
      (List.range 9).foldl
        (fun cells column_id =>
          cells.set (row_id * 9 + column_id) (values row_id column_id))
        new_cells)
    (List.replicate 81 0)⟩

/-- `Board::index(id)` (the `Index<usize>` impl): the cell at a flat index. -/
def cell_at (b : Board) (id : Nat) : Nat :=
  b.cells.getD id 0

/-- `Board::index_by_row_and_col(row, col)` = `self[row * 9 + col]`. -/
def index_by_row_and_col (b : Board) (row col : Nat) : Nat :=
  b.cell_at (row * 9 + col)

/-- `Board::unassigned`: indices (ascending) of the cells holding 0. -/
def unassigned (b : Board) : List Nat :=
  (List.range 81).filter (fun cell_id => b.cell_at cell_id == 0)

/-- The base flat index of each block, `[0, 3, 6, 27, 30, 33, 54, 57, 60]`. -/
def base_cell_id_per_block : List Nat := [0, 3, 6, 27, 30, 33, 54, 57, 60]

/-- `Board::block(block_id)`: the 9 cells at `base + row_offset + col_offset`
for `row_offset in [0, 9, 18]` and `col_offset in [0, 1, 2]`, in that order. -/
def block (b : Board) (block_id : Nat) : Slice :=
  let base := base_cell_id_per_block.getD block_id 0
  [0, 9, 18].flatMap (fun row_offset =>
    [0, 1, 2].map (fun col_offset => b.cell_at (base + row_offset + col_offset)))

/-- `Board::row(row_id)`: cells at flat indices `row_id * 9 + column_id`. -/
def row (b : Board) (row_id : Nat) : Slice :=
  (List.range 9).map (fun column_id => b.cell_at (row_id * 9 + column_id))

/-- `Board::column(column_id)`: cells at flat indices `row_id * 9 + column_id`. -/
def column (b : Board) (column_id : Nat) : Slice :=
  (List.range 9).map (fun row_id => b.cell_at (row_id * 9 + column_id))

/-- `Board::replace_cell(cell_id, value)`: a copy of the board with one cell
replaced; the receiver is untouched (the Rust code clones first). -/
def replace_cell (b : Board) (cell_id : Nat) (value : Nat) : Board :=
  ⟨b.cells.set cell_id value⟩

end Board

/-- The error payload of `Error::ConstraintError { region, slice }` (the only
variant `verify_board` produces). -/
inductive Error where
  | ConstraintError (region : String) (slice : Slice)
deriving DecidableEq

/-- The game instance wrapping the current board. -/
structure Sudoku where
  board : Board
deriving DecidableEq

namespace Sudoku

/-- `Sudoku::init_board_values`. -/
def init_board_values (values : Nat → Nat) : Sudoku :=
  ⟨Board.from_flattened_values values⟩

/-- The label `format!("column {}", column_id + 1)`. -/
def column_label (column_id : Nat) : String :=
  let n := column_id + 1
  s!"column {n}"

/-- The label `format!("row {}", row_id + 1)`. -/
def row_label (row_id : Nat) : String :=
  let n := row_id + 1
  s!"row {n}"

/-- The label `format!("block {}-{}", vertical_pos[block_id / 3], horizontal_pos[block_id % 3])`. -/
def block_label (block_id : Nat) : String :=
  let vertical_pos : List String := ["top", "middle", "bottom"]
  let horizontal_pos : List String := ["left", "center", "right"]
  let v := vertical_pos.getD (block_id / 3) ""
  let h := horizontal_pos.getD (block_id % 3) ""
  s!"block {v}-{h}"

/-- `Sudoku::verify_board`: scan columns 0..9, then rows 0..9, then blocks
0..9, returning the first region whose slice fails
`has_unique_sudoku_values` (each Rust `for` loop with an early `return Err`
is a first-match search). -/
def verify_board (s : Sudoku) : Except Error Unit :=
  match (List.range 9).find?
      (fun column_id => !(Slice.has_unique_sudoku_values (s.board.column column_id))) with
  | some column_id =>
      .error (.ConstraintError (column_label column_id) (s.board.column column_id))
  | none =>
  match (List.range 9).find?
      (fun row_id => !(Slice.has_unique_sudoku_values (s.board.row row_id))) with
  | some row_id =>
      .error (.ConstraintError (row_label row_id) (s.board.row row_id))
  | none =>
  match (List.range 9).find?
      (fun block_id => !(Slice.has_unique_sudoku_values (s.board.block block_id))) with
  | some block_id =>
      .error (.ConstraintError (block_label block_id) (s.board.block block_id))
  | none => .ok ()

/-- `Sudoku::finished`: no unassigned cell remains. -/
def finished (s : Sudoku) : Bool :=
  s.board.unassigned.isEmpty

/-- `Sudoku::next_possible_moves`: for each unassigned cell and each
candidate value 1..=9, skip (`continue`) when the candidate is present in
the cell's column, row, or `block(row_id)`; otherwise emit
`(cell_id, replace_cell(cell_id, candidate_value))`. -/
def next_possible_moves (s : Sudoku) : List (Nat × Board) :=
  let b := s.board
  let cells_to_update := b.unassigned
  cells_to_update.flatMap (fun cell_id =>
    (List.range' 1 9).filterMap (fun candidate_value =>
      let column_id := cell_id % 9
      let row_id := cell_id / 9
      if Slice.has (b.column column_id) candidate_value then none
      else if Slice.has (b.row row_id) candidate_value then none
      else if Slice.has (b.block row_id) candidate_value then none
      else some (cell_id, b.replace_cell cell_id candidate_value)))

end Sudoku

/-- The 81-digit example puzzle of `main`. -/
def example_values : List Nat :=
  [0, 0, 0, 2, 6, 0, 7, 0, 1,
   6, 8, 0, 0, 7, 0, 0, 9, 0,
   1, 9, 0, 0, 0, 4, 5, 0, 0,
   8, 2, 0, 1, 0, 0, 0, 4, 0,
   0, 0, 4, 6, 0, 2, 9, 0, 0,
   0, 5, 0, 0, 0, 3, 0, 2, 8,
   0, 0, 9, 3, 0, 0, 0, 7, 4,
   0, 4, 0, 0, 5, 0, 0, 3, 6,
   7, 0, 3, 0, 1, 8, 0, 0, 0]

/-- The game state of `main` after `init_board_values(&example_values)`. -/
def example_sudoku : Sudoku :=
  Sudoku.init_board_values (fun i => example_values.getD i 0)

/-- A board whose only assigned cell is the digit 5 at flat index 10
(row 1, column 1); used to exhibit the block-lookup defect of
`next_possible_moves`. -/
def lone_five_board : Board :=
  ⟨(List.range 81).map (fun i => if i == 10 then 5 else 0)⟩

/-- A board whose only duplicate is in column index 3: the digit 5 sits at
flat indices 3 (row 0) and 30 (row 3), so every row and every block is
duplicate-free. -/
def column_dup_board : Board :=
  ⟨(List.range 81).map (fun i => if i == 3 || i == 30 then 5 else 0)⟩

/-- Spec-side reading of `Board::block`: the flat cell indices a block
covers, `base + row_offset + col_offset`. -/
def block_cell_ids (block_id : Nat) : List Nat :=
  let base := Board.base_cell_id_per_block.getD block_id 0
  [0, 9, 18].flatMap (fun row_offset =>
    [0, 1, 2].map (fun col_offset => base + row_offset + col_offset))

/-- Spec-side reading of `verify_board`: the 27 labelled regions in the
fixed checking order — columns 0–8, then rows 0–8, then blocks 0–8. -/
def region_list (b : Board) : List (String × Slice) :=
  (List.range 9).map (fun column_id => (Sudoku.column_label column_id, b.column column_id))
    ++ (List.range 9).map (fun row_id => (Sudoku.row_label row_id, b.row row_id))
    ++ (List.range 9).map (fun block_id => (Sudoku.block_label block_id, b.block block_id))

/-- The first region of `region_list` (in checking order) whose slice fails
the uniqueness test. -/
def first_violation (b : Board) : Option (String × Slice) :=
  (region_list b).find? (fun r => !(Slice.has_unique_sudoku_values r.2))

/-- Spec-side reading of `next_possible_moves`: for every unassigned cell in
order and every digit 1–9 in order, keep the pair iff the digit is absent
(as a member) from the cell's column, its row, and the block looked up with
the cell's row index. -/
def moves_spec (s : Sudoku) : List (Nat × Board) :=
  s.board.unassigned.flatMap (fun cell_id =>
    (([1, 2, 3, 4, 5, 6, 7, 8, 9] : List Nat).filter (fun d =>
      decide (d ∉ s.board.column (cell_id % 9)
        ∧ d ∉ s.board.row (cell_id / 9)
        ∧ d ∉ s.board.block (cell_id / 9)))).map
      (fun d => (cell_id, s.board.replace_cell cell_id d)))

/-! ### Helper lemmas -/

theorem length_column (b : Board) (column_id : Nat) : (b.column column_id).length = 9 := rfl

theorem length_row (b : Board) (row_id : Nat) : (b.row row_id).length = 9 := rfl

theorem length_block (b : Board) (block_id : Nat) : (b.block block_id).length = 9 := rfl

/-- For a 9-cell slice the index-bounded search of `Slice::has` is exactly
list membership. -/
theorem has_iff_mem {s : Slice} (hlen : s.length = 9) {v : Nat} :
    Slice.has s v = true ↔ v ∈ s := by
  unfold Slice.has
  rw [List.any_eq_true]
  constructor
  · rintro ⟨i, hi, hv⟩
    rw [List.mem_range] at hi
    have hi9 : i < s.length := by omega
    rw [List.getD_eq_getElem _ _ hi9, beq_iff_eq] at hv
    exact hv ▸ List.getElem_mem hi9
  · intro hv
    obtain ⟨n, hn, he⟩ := List.mem_iff_getElem.mp hv
    refine ⟨n, List.mem_range.mpr (by omega), ?_⟩
    rw [List.getD_eq_getElem _ _ hn, beq_iff_eq]
    exact he

theorem has_eq_decide_mem {s : Slice} (hlen : s.length = 9) (v : Nat) :
    Slice.has s v = decide (v ∈ s) := by
  by_cases hv : v ∈ s
  · simp [hv, (has_iff_mem hlen).mpr hv]
  · have hd : decide (v ∈ s) = false := by simp [hv]
    rw [hd]
    exact Bool.eq_false_iff.mpr (fun h => hv ((has_iff_mem hlen).mp h))

/-- A fold that writes `w c` at position `start + c` for `c` in `0..n` reads
back as expected and leaves all other positions alone. -/
theorem foldl_set_length {α : Type} (w : Nat → α) (start : Nat) :
    ∀ (n : Nat) (cs : List α),
      ((List.range n).foldl (fun acc c => acc.set (start + c) (w c)) cs).length = cs.length := by
  intro n
  induction n with
  | zero => intro cs; rfl
  | succ k ih =>
    intro cs
    rw [List.range_succ, List.foldl_append, List.foldl_cons, List.foldl_nil,
      List.length_set, ih]

theorem foldl_set_getD {α : Type} (w : Nat → α) (start : Nat) (d : α) :
    ∀ (n : Nat) (cs : List α) (j : Nat), start + n ≤ cs.length →
      ((List.range n).foldl (fun acc c => acc.set (start + c) (w c)) cs).getD j d =
        if start ≤ j ∧ j < start + n then w (j - start) else cs.getD j d := by
  intro n
  induction n with
  | zero =>
    intro cs j _
    rw [if_neg (by omega)]
    rfl
  | succ k ih =>
    intro cs j hle
    rw [List.range_succ, List.foldl_append, List.foldl_cons, List.foldl_nil]
    have hflen : ((List.range k).foldl (fun acc c => acc.set (start + c) (w c)) cs).length
        = cs.length := foldl_set_length w start k cs
    by_cases hj : j < cs.length
    · by_cases hjk : j = start + k
      · rw [List.getD_eq_getElem _ _ (by rw [List.length_set, hflen]; omega)]
        subst hjk
        rw [List.getElem_set_self, if_pos (by omega)]
        congr 1
        omega
      · rw [List.getD_eq_getElem _ _ (by rw [List.length_set, hflen]; omega),
          List.getElem_set_ne (by omega), ← List.getD_eq_getElem _ d (by rw [hflen]; omega),
          ih cs j (by omega)]
        have hiff : (start ≤ j ∧ j < start + k) ↔ (start ≤ j ∧ j < start + (k + 1)) := by omega
        by_cases hc : start ≤ j ∧ j < start + k
        · rw [if_pos hc, if_pos (hiff.mp hc)]
        · rw [if_neg hc, if_neg (fun hx => hc (hiff.mpr hx))]
    · rw [List.getD_eq_default _ _ (by rw [List.length_set, hflen]; omega),
        List.getD_eq_default _ _ (by omega), if_neg (by omega)]

theorem outer_fold_length (values : Nat → Nat → Nat) :
    ∀ (n : Nat) (cs : List Nat),
      ((List.range n).foldl
        (fun new_cells row_id =>
          (List.range 9).foldl
            (fun cells column_id => cells.set (row_id * 9 + column_id) (values row_id column_id))
            new_cells)
        cs).length = cs.length := by
  intro n
  induction n with
  | zero => intro cs; rfl
  | succ k ih =>
    intro cs
    rw [show List.range (k + 1) = List.range k ++ [k] from List.range_succ k,
      List.foldl_append, List.foldl_cons, List.foldl_nil,
      foldl_set_length (values k) (k * 9) 9, ih]

theorem outer_fold_getD (values : Nat → Nat → Nat) :
    ∀ (n : Nat), n ≤ 9 → ∀ (cs : List Nat), cs.length = 81 → ∀ (j : Nat),
      ((List.range n).foldl
        (fun new_cells row_id =>
          (List.range 9).foldl
            (fun cells column_id => cells.set (row_id * 9 + column_id) (values row_id column_id))
            new_cells)
        cs).getD j 0 =
        if j < n * 9 then values (j / 9) (j % 9) else cs.getD j 0 := by
  intro n
  induction n with
  | zero =>
    intro _ cs _ j
    rw [if_neg (by omega)]
    rfl
  | succ k ih =>
    intro hk cs hcs j
    rw [show List.range (k + 1) = List.range k ++ [k] from List.range_succ k,
      List.foldl_append, List.foldl_cons, List.foldl_nil,
      foldl_set_getD (values k) (k * 9) 0 9 _ j (by rw [outer_fold_length values k cs, hcs]; omega),
      ih (by omega) cs hcs j]
    by_cases hin : k * 9 ≤ j ∧ j < k * 9 + 9
    · rw [if_pos hin, if_pos (by omega)]
      rw [show j / 9 = k from by omega, show j % 9 = j - k * 9 from by omega]
    · rw [if_neg hin]
      by_cases hlo : j < k * 9
      · rw [if_pos hlo, if_pos (by omega)]
      · rw [if_neg hlo, if_neg (by omega)]

theorem from_values_per_row_cell_at (values : Nat → Nat → Nat) (j : Nat) (hj : j < 81) :
    (Board.from_values_per_row values).cell_at j = values (j / 9) (j % 9) := by
  unfold Board.from_values_per_row Board.cell_at
  rw [outer_fold_getD values 9 (le_refl 9) _ (by simp) j, if_pos (by omega)]

theorem from_values_per_row_length (values : Nat → Nat → Nat) :
    (Board.from_values_per_row values).cells.length = 81 := by
  unfold Board.from_values_per_row
  rw [outer_fold_length values 9 _]
  simp

theorem from_flattened_values_cell_at (values : Nat → Nat) (j : Nat) (hj : j < 81) :
    (Board.from_flattened_values values).cell_at j = values j := by
  unfold Board.from_flattened_values Board.cell_at
  rw [List.getD_eq_getElem _ _ (by simpa using hj), List.getElem_map, List.getElem_range]
/-! ### Claim theorems -/

/-- C5: `block(block_id)` returns, for every board and `block_id` in 0–8, the
nine cells at `base + 9 * i + j` (`base` the `block_id`-th entry of
`[0, 3, 6, 27, 30, 33, 54, 57, 60]`, `i, j` in `{0, 1, 2}`) in that order,
and the nine blocks together cover each of the 81 flat indices exactly once
(the standard partition, block 0 top-left and block 8 bottom-right). -/
theorem block_partition :
    (∀ (b : Board) (block_id : Nat), block_id < 9 →
      b.block block_id = (block_cell_ids block_id).map b.cell_at)
    ∧ ((List.range 9).flatMap block_cell_ids).Perm (List.range 81)
    ∧ block_cell_ids 0 = [0, 1, 2, 9, 10, 11, 18, 19, 20]
    ∧ block_cell_ids 8 = [60, 61, 62, 69, 70, 71, 78, 79, 80] := by
  refine ⟨?_, by decide, rfl, rfl⟩
  intro b block_id h
  interval_cases block_id <;> rfl

/-- Witness for C5 at a concrete board and block id. -/
theorem block_partition_witness :
    Board.block ⟨example_values⟩ 8 = (block_cell_ids 8).map (Board.cell_at ⟨example_values⟩) :=
  block_partition.1 ⟨example_values⟩ 8 (by decide)

/-- C6: the two constructors agree on equivalent input and round-trip with
indexed access: if `flat (r * 9 + c) = rows r c` on the valid index range,
then `from_values_per_row rows` and `from_flattened_values flat` are the
same board, and reading it back with `index_by_row_and_col r c` yields
`rows r c`. -/
theorem constructors_agree (rows : Nat → Nat → Nat) (flat : Nat → Nat)
    (h : ∀ r c, r < 9 → c < 9 → flat (r * 9 + c) = rows r c) :
    Board.from_values_per_row rows = Board.from_flattened_values flat
    ∧ ∀ r c, r < 9 → c < 9 →
      (Board.from_values_per_row rows).index_by_row_and_col r c = rows r c := by
  have key : ∀ j, j < 81 →
      (Board.from_values_per_row rows).cell_at j = flat j := by
    intro j hj
    rw [from_values_per_row_cell_at rows j hj]
    have hh := h (j / 9) (j % 9) (by omega) (by omega)
    rw [show j / 9 * 9 + j % 9 = j from by omega] at hh
    exact hh.symm
  constructor
  · have h1 : (Board.from_values_per_row rows).cells.length = 81 :=
      from_values_per_row_length rows
    have h2 : (Board.from_flattened_values flat).cells.length = 81 := by
      simp [Board.from_flattened_values]
    have hc : (Board.from_values_per_row rows).cells = (Board.from_flattened_values flat).cells := by
      apply List.ext_getElem (by rw [h1, h2])
      intro i hi1 hi2
      have hi81 : i < 81 := by omega
      have k1 := key i hi81
      have k2 := from_flattened_values_cell_at flat i hi81
      unfold Board.cell_at at k1 k2
      rw [List.getD_eq_getElem _ _ hi1] at k1
      rw [List.getD_eq_getElem _ _ hi2] at k2
      rw [k1, k2]
    exact Board.ext hc
  · intro r c hr hc
    unfold Board.index_by_row_and_col
    rw [from_values_per_row_cell_at rows _ (by omega),
      show (r * 9 + c) / 9 = r from by omega, show (r * 9 + c) % 9 = c from by omega]

/-- Witness for C6: the constructor agreement at a concrete pair of inputs. -/
theorem constructors_agree_witness :
    Board.from_values_per_row (fun r c => r * 9 + c) = Board.from_flattened_values (fun i => i)
    ∧ (Board.from_values_per_row (fun r c => r * 9 + c)).index_by_row_and_col 4 7 = 4 * 9 + 7 := by
  have h := constructors_agree (fun r c => r * 9 + c) (fun i => i) (fun _ _ _ _ => rfl)
  exact ⟨h.1, h.2 4 7 (by decide) (by decide)⟩

/-- C7: `replace_cell(cell_id, value)` yields a board holding `value` at
`cell_id` and the receiver's cell at every other index; the receiver itself
is a value that the call leaves untouched (the embedding is functional, the
Rust code clones before writing). -/
theorem replace_cell_frame (b : Board) (cell_id : Nat) (value : Nat)
    (hlen : b.cells.length = 81) (hid : cell_id < 81) :
    (b.replace_cell cell_id value).cell_at cell_id = value
    ∧ ∀ j, j ≠ cell_id → (b.replace_cell cell_id value).cell_at j = b.cell_at j := by
  constructor
  · unfold Board.replace_cell Board.cell_at
    rw [List.getD_eq_getElem _ _ (by rw [List.length_set]; omega)]
    exact List.getElem_set_self _
  · intro j hj
    unfold Board.replace_cell Board.cell_at
    by_cases hjl : j < 81
    · rw [List.getD_eq_getElem _ _ (by rw [List.length_set]; omega),
        List.getD_eq_getElem _ _ (by omega)]
      exact List.getElem_set_ne (fun he => hj he.symm) _
    · rw [List.getD_eq_default _ _ (by rw [List.length_set]; omega),
        List.getD_eq_default _ _ (by omega)]

/-- Witness for C7 at a concrete board, index and value. -/
theorem replace_cell_frame_witness :
    (Board.replace_cell ⟨example_values⟩ 10 7).cell_at 10 = 7
    ∧ (Board.replace_cell ⟨example_values⟩ 10 7).cell_at 11 =
        Board.cell_at ⟨example_values⟩ 11 := by
  have h := replace_cell_frame ⟨example_values⟩ 10 7 (by decide) (by decide)
  exact ⟨h.1, h.2 11 (by decide)⟩

/-- C3: loading the example puzzle gives a board that passes `verify_board`,
is not `finished`, and whose `next_possible_moves` candidates at cell 0 are
exactly the digits of 1–9 absent from row 0, column 0 and the block looked
up for cell 0 — the set {3, 4, 5}. -/
theorem example_board_end_to_end :
    Sudoku.verify_board example_sudoku = .ok ()
    ∧ Sudoku.finished example_sudoku = false
    ∧ ((Sudoku.next_possible_moves example_sudoku).filter (fun m => m.1 == 0)).map
        (fun m => m.2.cell_at 0) = [3, 4, 5]
    ∧ ([1, 2, 3, 4, 5, 6, 7, 8, 9] : List Nat).filter (fun d =>
        decide (d ∉ example_sudoku.board.row 0 ∧ d ∉ example_sudoku.board.column 0
          ∧ d ∉ example_sudoku.board.block 0)) = [3, 4, 5] :=
  ⟨rfl, rfl, rfl, rfl⟩

/-- C4: a board that passes `verify_board` (its only assigned cell is a 5 at
row 1, column 1) admits, through the row-indexed block lookup of
`next_possible_moves`, the candidate 5 at cell 18 (row 2, column 0); the
resulting candidate board has two 5s in the top-left block and fails
`verify_board`. -/
theorem valid_board_with_invalid_candidate :
    Sudoku.verify_board ⟨lone_five_board⟩ = .ok ()
    ∧ (18, lone_five_board.replace_cell 18 5) ∈ Sudoku.next_possible_moves ⟨lone_five_board⟩
    ∧ Sudoku.verify_board ⟨lone_five_board.replace_cell 18 5⟩ =
        .error (.ConstraintError "block top-left" [0, 0, 0, 0, 5, 0, 5, 0, 0]) :=
  ⟨rfl, by decide, rfl⟩
theorem count_step_length (cnt : List Nat) (c : Nat) :
    (Slice.count_step cnt c).length = cnt.length := by
  unfold Slice.count_step
  split <;> simp [List.length_set]

theorem foldl_count_step_length (s : Slice) :
    ∀ cnt : List Nat, (s.foldl Slice.count_step cnt).length = cnt.length := by
  induction s with
  | nil => intro cnt; rfl
  | cons c t ih => intro cnt; rw [List.foldl_cons, ih, count_step_length]

/-- The occurrence array built by `has_unique_sudoku_values` holds, at slot
`d - 1`, the initial slot value plus the number of occurrences of `d`. -/
theorem foldl_count_step_getD (s : Slice) :
    ∀ cnt : List Nat, cnt.length = 9 → ∀ d, 1 ≤ d → d ≤ 9 →
      (s.foldl Slice.count_step cnt).getD (d - 1) 0 = cnt.getD (d - 1) 0 + s.count d := by
  induction s with
  | nil => intro cnt _ d _ _; simp
  | cons c t ih =>
    intro cnt hlen d h1 h9
    rw [List.foldl_cons, ih (Slice.count_step cnt c) (by rw [count_step_length]; exact hlen) d h1 h9,
      List.count_cons]
    unfold Slice.count_step
    by_cases hc : 1 ≤ c ∧ c ≤ 9
    · rw [if_pos hc]
      by_cases hcd : c = d
      · rw [hcd]
        rw [List.getD_eq_getElem _ _ (by rw [List.length_set]; omega),
          List.getElem_set_self]
        rw [show (d == d) = true from beq_self_eq_true d, if_pos rfl]
        omega
      · rw [List.getD_eq_getElem _ _ (by rw [List.length_set]; omega),
          List.getElem_set_ne (show c - 1 ≠ d - 1 by omega),
          ← List.getD_eq_getElem _ 0 (show d - 1 < cnt.length by omega)]
        rw [show (c == d) = false from beq_eq_false_iff_ne.mpr hcd, if_neg Bool.false_ne_true]
        omega
    · rw [if_neg hc]
      have hcd : c ≠ d := by omega
      rw [show (c == d) = false from beq_eq_false_iff_ne.mpr hcd, if_neg Bool.false_ne_true]
      omega

/-- `has_unique_sudoku_values` is `false` exactly when some admissible digit
occurs at least twice. -/
theorem has_unique_eq_false_iff (s : Slice) :
    Slice.has_unique_sudoku_values s = false ↔ ∃ d, 1 ≤ d ∧ d ≤ 9 ∧ 2 ≤ s.count d := by
  unfold Slice.has_unique_sudoku_values
  rw [List.all_eq_false]
  have hlen : (s.foldl Slice.count_step (List.replicate 9 0)).length = 9 := by
    rw [foldl_count_step_length]
    simp
  constructor
  · rintro ⟨x, hx, hpx⟩
    simp at hpx
    obtain ⟨j, hj, hxj⟩ := List.mem_iff_getElem.mp hx
    have hj9 : j < 9 := by omega
    refine ⟨j + 1, by omega, by omega, ?_⟩
    have hval := foldl_count_step_getD s (List.replicate 9 0) (by simp) (j + 1) (by omega) (by omega)
    have e1 : j + 1 - 1 = j := rfl
    rw [e1, List.getD_eq_getElem _ _ (by omega), hxj] at hval
    have e2 : (List.replicate 9 (0 : Nat)).getD j 0 = 0 := by
      rw [List.getD_eq_getElem _ _ (by simp [hj9]), List.getElem_replicate]
    rw [e2] at hval
    omega
  · rintro ⟨d, h1, h9, hcount⟩
    have hval := foldl_count_step_getD s (List.replicate 9 0) (by simp) d h1 h9
    have e2 : (List.replicate 9 (0 : Nat)).getD (d - 1) 0 = 0 := by
      rw [List.getD_eq_getElem _ _ (by simp; omega), List.getElem_replicate]
    rw [e2] at hval
    refine ⟨(s.foldl Slice.count_step (List.replicate 9 0)).getD (d - 1) 0, ?_, ?_⟩
    · rw [List.getD_eq_getElem _ _ (show d - 1 < _ from by omega)]
      exact List.getElem_mem _
    · rw [hval]
      simp
      omega

/-- `has_unique_sudoku_values` depends only on the multiplicities of the
digits 1–9 (so 0-cells and out-of-range cells are irrelevant). -/
theorem has_unique_congr_of_count {s t : Slice}
    (h : ∀ d, 1 ≤ d → d ≤ 9 → t.count d = s.count d) :
    Slice.has_unique_sudoku_values t = Slice.has_unique_sudoku_values s := by
  cases hfs : Slice.has_unique_sudoku_values s with
  | false =>
    obtain ⟨d, h1, h9, hc⟩ := (has_unique_eq_false_iff s).mp hfs
    exact (has_unique_eq_false_iff t).mpr ⟨d, h1, h9, by rw [h d h1 h9]; exact hc⟩
  | true =>
    cases hft : Slice.has_unique_sudoku_values t with
    | true => rfl
    | false =>
      obtain ⟨d, h1, h9, hc⟩ := (has_unique_eq_false_iff t).mp hft
      have hsf : Slice.has_unique_sudoku_values s = false :=
        (has_unique_eq_false_iff s).mpr ⟨d, h1, h9, by rw [← h d h1 h9]; exact hc⟩
      rw [hsf] at hfs
      exact Bool.noConfusion hfs

/-- C8: `has_unique_sudoku_values` is false iff some digit of 1–9 occurs more
than once; it depends only on the multiplicities of 1–9, so a single
occurrence keeps it true, a second occurrence falsifies it, and adding or
removing 0-cells (which leave those multiplicities alone) never changes the
result. -/
theorem has_unique_sudoku_values_iff (s : Slice) :
    (Slice.has_unique_sudoku_values s = false ↔ ∃ d, 1 ≤ d ∧ d ≤ 9 ∧ 2 ≤ s.count d)
    ∧ ∀ t : Slice, (∀ d, 1 ≤ d → d ≤ 9 → t.count d = s.count d) →
        Slice.has_unique_sudoku_values t = Slice.has_unique_sudoku_values s :=
  ⟨has_unique_eq_false_iff s, fun _ h => has_unique_congr_of_count h⟩

/-- Witness for C8: a 0-padded slice with one 5 agrees with a differently
0-padded one, and the double-5 slice is refuted concretely. -/
theorem has_unique_sudoku_values_iff_witness :
    Slice.has_unique_sudoku_values [0, 5, 0, 0, 0, 0, 0, 0, 0, 0, 0] =
      Slice.has_unique_sudoku_values [5, 0, 0, 0, 0, 0, 0, 0, 0] := by
  have h := (has_unique_sudoku_values_iff [5, 0, 0, 0, 0, 0, 0, 0, 0]).2
    [0, 5, 0, 0, 0, 0, 0, 0, 0, 0, 0]
  exact h (by intro d h1 h9; interval_cases d <;> rfl)
/-- C9: `unused_sudoku_values` returns, in strictly ascending order, exactly
the digits of 1–9 that occur nowhere in the 9-cell slice — so the result is
disjoint from the digits present and together with them covers {1,...,9}. -/
theorem unused_sudoku_values_sound (s : Slice) (hlen : s.length = 9) :
    List.Sorted (fun x y => x < y) (Slice.unused_sudoku_values s)
    ∧ ∀ d, d ∈ Slice.unused_sudoku_values s ↔ (1 ≤ d ∧ d ≤ 9 ∧ d ∉ s) := by
  constructor
  · exact List.Pairwise.filter _ (List.pairwise_lt_range' 1 9)
  · intro d
    unfold Slice.unused_sudoku_values
    rw [List.mem_filter, List.mem_range'_1]
    constructor
    · rintro ⟨⟨hd1, hd9⟩, hnot⟩
      refine ⟨hd1, by omega, ?_⟩
      intro hmem
      rw [has_eq_decide_mem hlen] at hnot
      simp [hmem] at hnot
    · rintro ⟨hd1, hd9, hnot⟩
      refine ⟨⟨hd1, by omega⟩, ?_⟩
      rw [has_eq_decide_mem hlen]
      simp [hnot]

/-- Witness for C9 on the example puzzle's first row. -/
theorem unused_sudoku_values_sound_witness :
    List.Sorted (fun x y => x < y) (Slice.unused_sudoku_values [0, 0, 0, 2, 6, 0, 7, 0, 1])
    ∧ (3 ∈ Slice.unused_sudoku_values [0, 0, 0, 2, 6, 0, 7, 0, 1] ↔
        (1 ≤ 3 ∧ 3 ≤ 9 ∧ 3 ∉ ([0, 0, 0, 2, 6, 0, 7, 0, 1] : Slice))) := by
  have h := unused_sudoku_values_sound [0, 0, 0, 2, 6, 0, 7, 0, 1] rfl
  exact ⟨h.1, h.2 3⟩

/-- C10: both slice queries ignore every cell value outside 1–9, not only 0:
overwriting a cell that holds an out-of-range value with any value above 9
changes neither `has_unique_sudoku_values` nor `unused_sudoku_values`, and a
slice of nine equal out-of-range values passes the uniqueness test and
reports all of 1–9 unused. -/
theorem out_of_range_values_ignored (s : Slice) (i w : Nat)
    (hlen : s.length = 9) (hi : i < 9)
    (hold : ¬(1 ≤ s.getD i 0 ∧ s.getD i 0 ≤ 9)) (hw : 9 < w) :
    Slice.has_unique_sudoku_values (s.set i w) = Slice.has_unique_sudoku_values s
    ∧ Slice.unused_sudoku_values (s.set i w) = Slice.unused_sudoku_values s
    ∧ ∀ v, 9 < v →
        Slice.has_unique_sudoku_values (List.replicate 9 v) = true
        ∧ Slice.unused_sudoku_values (List.replicate 9 v) = List.range' 1 9 := by
  have hcount : ∀ d, 1 ≤ d → d ≤ 9 → (s.set i w).count d = s.count d := by
    intro d h1 h9
    have hilen : i < s.length := by omega
    rw [List.count_set _ _ _ _ hilen, ← List.getD_eq_getElem s 0 hilen]
    have hio : (s.getD i 0 == d) = false := by
      rw [beq_eq_false_iff_ne]
      omega
    have hwd : (w == d) = false := by
      rw [beq_eq_false_iff_ne]
      omega
    rw [hio, hwd]
    simp
  refine ⟨has_unique_congr_of_count hcount, ?_, ?_⟩
  · unfold Slice.unused_sudoku_values
    apply List.filter_congr
    intro d hd
    rw [List.mem_range'_1] at hd
    have hmem : d ∈ s.set i w ↔ d ∈ s := by
      rw [← List.count_pos_iff, ← List.count_pos_iff, hcount d (by omega) (by omega)]
    rw [has_eq_decide_mem (by rw [List.length_set]; exact hlen),
      has_eq_decide_mem hlen]
    rw [decide_eq_decide.mpr hmem]
  · intro v hv
    constructor
    · have hstep : Slice.count_step (List.replicate 9 0) v = List.replicate 9 0 := by
        unfold Slice.count_step
        rw [if_neg (by omega)]
      have hfold : ∀ n, (List.replicate n v).foldl Slice.count_step (List.replicate 9 0)
          = List.replicate 9 0 := by
        intro n
        induction n with
        | zero => rfl
        | succ k ih =>
          rw [show List.replicate (k + 1) v = v :: List.replicate k v from rfl,
            List.foldl_cons, hstep, ih]
      unfold Slice.has_unique_sudoku_values
      rw [hfold 9]
      rfl
    · unfold Slice.unused_sudoku_values
      apply List.filter_eq_self.mpr
      intro a ha
      rw [List.mem_range'_1] at ha
      have hhas : Slice.has (List.replicate 9 v) a = false := by
        rw [has_eq_decide_mem (by simp)]
        simp only [List.mem_replicate, decide_eq_false_iff_not]
        omega
      rw [hhas]
      rfl

/-- Witness for C10: rewriting a 10 into a 255 changes nothing, and the
all-10 slice passes the uniqueness test. -/
theorem out_of_range_values_ignored_witness :
    Slice.has_unique_sudoku_values (([10, 0, 0, 0, 0, 0, 0, 0, 0] : Slice).set 0 255) =
      Slice.has_unique_sudoku_values [10, 0, 0, 0, 0, 0, 0, 0, 0]
    ∧ Slice.unused_sudoku_values (([10, 0, 0, 0, 0, 0, 0, 0, 0] : Slice).set 0 255) =
      Slice.unused_sudoku_values [10, 0, 0, 0, 0, 0, 0, 0, 0]
    ∧ Slice.has_unique_sudoku_values (List.replicate 9 10) = true
    ∧ Slice.unused_sudoku_values (List.replicate 9 10) = List.range' 1 9 := by
  have h := out_of_range_values_ignored [10, 0, 0, 0, 0, 0, 0, 0, 0] 0 255 rfl
    (by decide) (by decide) (by decide)
  exact ⟨h.1, h.2.1, (h.2.2 10 (by decide)).1, (h.2.2 10 (by decide)).2⟩
/-- A chain of `continue`-style guards inside `filterMap` is a `filter` by
the conjunction of the negated guards followed by a `map`. -/
theorem filterMap_three_guards {α β : Type} (l : List α) (c1 c2 c3 : α → Bool) (f : α → β) :
    (l.filterMap fun a =>
        if c1 a then none else if c2 a then none else if c3 a then none else some (f a)) =
      (l.filter fun a => !(c1 a) && !(c2 a) && !(c3 a)).map f := by
  induction l with
  | nil => rfl
  | cons a t ih =>
    rw [List.filterMap_cons, List.filter_cons]
    cases h1 : c1 a <;> cases h2 : c2 a <;> cases h3 : c3 a <;>
      simp [h1, h2, h3, ih]

/-- C1: `next_possible_moves` ranges over the unassigned cells in ascending
flat-index order (the unassigned list is sorted and holds exactly the
indices below 81 whose cell is 0) and over the digits 1–9 in ascending
order, accepting a pair iff the digit is absent from the cell's column
(`cell_id % 9`), its row (`cell_id / 9`) and the block looked up with the
row index (`block (cell_id / 9)`, not the true block id), and emits one
`(cell_id, replace_cell cell_id digit)` entry per accepted pair in that
iteration order — this is `moves_spec`. -/
theorem next_possible_moves_characterization (s : Sudoku) :
    List.Sorted (fun x y => x < y) s.board.unassigned
    ∧ (∀ i, i ∈ s.board.unassigned ↔ (i < 81 ∧ s.board.cell_at i = 0))
    ∧ Sudoku.next_possible_moves s = moves_spec s := by
  refine ⟨List.Pairwise.filter _ (List.pairwise_lt_range 81), ?_, ?_⟩
  · intro i
    unfold Board.unassigned
    rw [List.mem_filter, List.mem_range]
    simp [beq_iff_eq]
  · simp only [Sudoku.next_possible_moves, moves_spec]
    apply List.flatMap_congr
    intro cell_id _
    rw [show (List.range' 1 9 : List Nat) = [1, 2, 3, 4, 5, 6, 7, 8, 9] from rfl,
      filterMap_three_guards]
    congr 1
    apply List.filter_congr
    intro d _
    rw [has_eq_decide_mem (length_column s.board (cell_id % 9)) d,
      has_eq_decide_mem (length_row s.board (cell_id / 9)) d,
      has_eq_decide_mem (length_block s.board (cell_id / 9)) d]
    simp [decide_not, Bool.and_assoc]
/-- Searching a labelled region list for a failing slice is the search for a
failing region index, decorated with its label. -/
theorem find_fail_map_pair (lbl : Nat → String) (reg : Nat → Slice) (l : List Nat) :
    (l.map (fun i => (lbl i, reg i))).find? (fun r => !(Slice.has_unique_sudoku_values r.2)) =
      Option.map (fun i => (lbl i, reg i))
        (l.find? (fun i => !(Slice.has_unique_sudoku_values (reg i)))) := by
  induction l with
  | nil => rfl
  | cons a t ih =>
    simp only [List.map_cons, List.find?_cons]
    cases h : Slice.has_unique_sudoku_values (reg a) with
    | true => simp [h, ih]
    | false => simp [h]

/-- C2: `verify_board` tests the 27 regions in the fixed order columns 0–8,
rows 0–8, blocks 0–8 (row-major), returns the first failing region as an
error carrying its label and slice (checking nothing after it), and returns
`ok` iff all 27 regions pass; on the board whose only duplicate sits in
column index 3, the reported violation is that column. -/
theorem verify_board_first_violation :
    (∀ s : Sudoku,
      Sudoku.verify_board s =
        match first_violation s.board with
        | some r => .error (.ConstraintError r.1 r.2)
        | none => .ok ())
    ∧ (∀ s : Sudoku,
      (Sudoku.verify_board s = .ok () ↔
        ∀ r ∈ region_list s.board, Slice.has_unique_sudoku_values r.2 = true))
    ∧ Sudoku.verify_board ⟨column_dup_board⟩ =
        .error (.ConstraintError "column 4" (column_dup_board.column 3)) := by
  have hmain : ∀ s : Sudoku,
      Sudoku.verify_board s =
        match first_violation s.board with
        | some r => Except.error (Error.ConstraintError r.1 r.2)
        | none => Except.ok () := by
    intro s
    unfold first_violation region_list
    rw [List.find?_append, List.find?_append, find_fail_map_pair, find_fail_map_pair,
      find_fail_map_pair]
    unfold Sudoku.verify_board
    cases hc : (List.range 9).find?
        (fun column_id => !(Slice.has_unique_sudoku_values (s.board.column column_id))) with
    | some c => rfl
    | none =>
      cases hr : (List.range 9).find?
          (fun row_id => !(Slice.has_unique_sudoku_values (s.board.row row_id))) with
      | some r => rfl
      | none =>
        cases hb : (List.range 9).find?
            (fun block_id => !(Slice.has_unique_sudoku_values (s.board.block block_id))) with
        | some b => rfl
        | none => rfl
  refine ⟨hmain, ?_, rfl⟩
  intro s
  rw [hmain s]
  unfold first_violation
  cases hf : (region_list s.board).find? (fun r => !(Slice.has_unique_sudoku_values r.2)) with
  | some r =>
    constructor
    · intro h
      exact Except.noConfusion h
    · intro hall
      have hp := List.find?_some hf
      have hmem := List.mem_of_find?_eq_some hf
      rw [hall r hmem] at hp
      exact Bool.noConfusion hp
  | none =>
    constructor
    · intro _ r hr
      have := List.find?_eq_none.mp hf r hr
      simpa using this
    · intro _
      rfl
